import Mathlib

/-!
Verification of the ASR error-correction core.

A shallow embedding of the `asr_error_correction` package
(`models.py`, `correction.py`, `conversion.py`, `tokenization.py`)
together with proofs about its span algebra, overlap resolution,
thresholding, tokenization and reconstruction behaviour.

Python strings are modelled as `List Char`, Python `int` span values as
`ℕ` (every constructor in the repository produces non-negative offsets),
query indices handed to the span-projection routine as `ℤ` (callers may
pass arbitrary integers), and `float` scores as `ℚ` (the code only
compares scores, never does float-specific arithmetic).
-/

namespace AsrEC

/-- Script classes distinguished by the tokenizer regex
`[㐀-䶿一-鿿]+|[A-Za-z]+|[^A-Za-z㐀-䶿一-鿿]+`
(`tokenization.py`, `conversion.py`). -/
inductive ScriptClass where
  | ideo
  | latin
  | other
deriving DecidableEq

/-- Character classification used by the tokenizer regex: the two CJK
ideograph ranges, then ASCII Latin letters, then everything else. -/
def classOf (c : Char) : ScriptClass :=
  if (0x3400 ≤ c.toNat ∧ c.toNat ≤ 0x4dbf) ∨ (0x4e00 ≤ c.toNat ∧ c.toNat ≤ 0x9fff) then .ideo
  else if ('A' ≤ c ∧ c ≤ 'Z') ∨ ('a' ≤ c ∧ c ≤ 'z') then .latin
  else .other

/-- The `TokenizedSegment(raw, start, end)` dataclass of `tokenization.py` and
`conversion.py`.  The Python attribute `end` is called `stop` here (`end` is a Lean keyword). -/
structure TokenizedSegment where
  raw : List Char
  start : Nat
  stop : Nat
deriving DecidableEq

/-- Core loop of `tokenize_mixed_text` / `IPAConverter.tokenize`: the regex yields the
maximal runs of same-class characters, in order, with their offsets.
Total for every input (the regex always advances): each step consumes at
least one character, so the input length is enough fuel and the `0` fuel
arm is never reached from `tokenizeFrom`. -/
def tokenizeGo : Nat → List Char → Nat → List TokenizedSegment
  | _, [], _ => []
  | 0, _ :: _, _ => []
  | fuel + 1, c :: rest, pos =>
    let run := rest.takeWhile (fun d => classOf d == classOf c)
    ⟨c :: run, pos, pos + 1 + run.length⟩ ::
      tokenizeGo fuel (rest.dropWhile (fun d => classOf d == classOf c)) (pos + 1 + run.length)

/-- The maximal same-class runs of `text` with offsets starting at `pos`. -/
def tokenizeFrom (text : List Char) (pos : Nat) : List TokenizedSegment :=
  tokenizeGo text.length text pos

/-- Model of `tokenize_mixed_text(text)` (`tokenization.py` lines 37-41). -/
def tokenize_mixed_text (text : List Char) : List TokenizedSegment :=
  tokenizeFrom text 0

/-- The `GraphemePhoneme` dataclass fields of `models.py`. -/
structure GraphemePhoneme where
  grapheme_str : List Char
  grapheme_list : List (List Char)
  phoneme_str : List Char
  phoneme_list : List (List Char)
  grapheme_spans : List (Nat × Nat)
  phoneme_spans : List (Nat × Nat)
deriving DecidableEq

/-- Model of `GraphemePhoneme.__post_init__` (`models.py` lines 25-34): the checks,
in source order, with the source's error messages; `.ok` when the Python
constructor returns normally. -/
def post_init_check (g : GraphemePhoneme) : Except String Unit :=
  if g.grapheme_list.length ≠ g.phoneme_list.length then
    .error "grapheme_list and phoneme_list must be the same length"
  else if g.grapheme_spans.length ≠ g.grapheme_list.length then
    .error "grapheme_spans must align with grapheme_list"
  else if g.phoneme_spans.length ≠ g.phoneme_list.length then
    .error "phoneme_spans must align with phoneme_list"
  else if g.phoneme_list.flatten ≠ g.phoneme_str then
    .error "phoneme_str must be the concatenation of phoneme_list"
  else .ok ()

/-- Returns `true` iff the Python constructor accepts `g`. -/
def post_init_ok (g : GraphemePhoneme) : Bool :=
  match post_init_check g with
  | .ok _ => true
  | .error _ => false

/-- The cumulative phoneme-span computation shared by
`subsequence_covering_span` (lines 68-73) and `from_components`
(lines 115-120): each unit's span starts where the previous one ended. -/
def cumulativeSpans : List (List Char) → Nat → List (Nat × Nat)
  | [], _ => []
  | v :: rest, pos => (pos, pos + v.length) :: cumulativeSpans rest (pos + v.length)

/-- Spans are contiguous starting at `n`: each span begins where the
previous one ended, and covers a well-defined stretch. -/
def contiguousFrom : Nat → List (Nat × Nat) → Prop
  | _, [] => True
  | n, sp :: rest => sp.1 = n ∧ n ≤ sp.2 ∧ contiguousFrom sp.2 rest

/-- The overlap test of `subsequence_covering_span` (`models.py` line 50):
`token_end > start and token_start < end`. -/
def overlapB (s e : Int) (sp : Nat × Nat) : Bool :=
  decide (s < (sp.2 : Int)) && decide ((sp.1 : Int) < e)

/-- The index comprehension of `subsequence_covering_span`
(`models.py` lines 47-51): `[idx for idx, (ts, te) in enumerate(spans) if
te > start and ts < end]`, written recursively with the running
`enumerate` counter made explicit. -/
def selectedIndicesFrom (s e : Int) : List (Nat × Nat) → Nat → List Nat
  | [], _ => []
  | sp :: rest, i =>
    if overlapB s e sp then i :: selectedIndicesFrom s e rest (i + 1)
    else selectedIndicesFrom s e rest (i + 1)

/-- The indices selected by `subsequence_covering_span` on `g`. -/
def selectedIndices (g : GraphemePhoneme) (s e : Int) : List Nat :=
  selectedIndicesFrom s e g.phoneme_spans 0

/-- Model of `GraphemePhoneme.subsequence_covering_span` (`models.py` lines 36-82).
Python list slicing `xs[a:b]` with the non-negative bounds arising here is
`(xs.drop a).take (b - a)`; `indices[0]` / `indices[-1]` are
`head?` / `getLast?` (the `| _, _ => none` branch is the
`if not indices: return None` case, the two options are `none` together).
The span lookups `self.grapheme_spans[idx]` are written with a `getD`
default that is never used for an instance accepted by
`__post_init__`, where `idx < len(grapheme_spans)` always holds. -/
def subsequence_covering_span (g : GraphemePhoneme) (s e : Int) : Option GraphemePhoneme :=
  if s ≥ e then none
  else
    match (selectedIndices g s e).head?, (selectedIndices g s e).getLast? with
    | some first_idx, some last_idx =>
      let first_graph_start := (g.grapheme_spans.getD first_idx (0, 0)).1
      let last_graph_end := (g.grapheme_spans.getD last_idx (0, 0)).2
      let sub_phoneme_list := (g.phoneme_list.drop first_idx).take (last_idx + 1 - first_idx)
      some
        { grapheme_str :=
            (g.grapheme_str.drop first_graph_start).take (last_graph_end - first_graph_start)
          grapheme_list := (g.grapheme_list.drop first_idx).take (last_idx + 1 - first_idx)
          phoneme_str := sub_phoneme_list.flatten
          phoneme_list := sub_phoneme_list
          grapheme_spans :=
            ((g.grapheme_spans.drop first_idx).take (last_idx + 1 - first_idx)).map
              (fun sp => (sp.1 - first_graph_start, sp.2 - first_graph_start))
          phoneme_spans := cumulativeSpans sub_phoneme_list 0 }
    | _, _ => none

/-! ## Converter pipeline (`conversion.py`)

The phonetic capabilities (`dragonmapper.hanzi.to_ipa`, `eng_to_ipa.convert`)
and the Unicode tables behind `str.isalpha` and `unicodedata.category` are
external libraries, not code of this repository; they enter the model as
parameters.  `phonC`/`phonE` denote the composite
`_sanitize_phoneme(_apply_marker_options(_convert_chinese/_convert_english(·)))`
applied per ideograph character / per alphabetic token, exactly the value
bound to `sanitized` in `convert_to_grapheme_phoneme`; `uAlpha` is the
per-character Unicode alphabetic test underlying `str.isalpha`. -/

/-- External capabilities of the converter (see module comment above). -/
structure ConvCaps where
  phonC : Char → List Char
  phonE : List Char → List Char
  uAlpha : Char → Bool

/-- Model of `TokenizedSegment.is_chinese`: `_CHINESE_RE.fullmatch(raw)`, i.e. a
non-empty run of ideograph-range characters. -/
def isChineseTok (t : List Char) : Bool :=
  !t.isEmpty && t.all (fun c => classOf c == ScriptClass.ideo)

/-- Model of `TokenizedSegment.is_alpha`: Python `raw.isalpha()` — non-empty and
every character Unicode-alphabetic. -/
def isAlphaTok (caps : ConvCaps) (t : List Char) : Bool :=
  !t.isEmpty && t.all caps.uAlpha

/-- One grapheme/phoneme unit produced by the converter: grapheme text,
its span in the input, and its (already sanitized) phoneme text. -/
structure ConvUnit where
  graph : List Char
  gstart : Nat
  gstop : Nat
  phon : List Char
deriving DecidableEq

/-- The per-character loop of the `token.is_chinese` branch of
`convert_to_grapheme_phoneme` (`conversion.py` lines 101-113): each
character becomes a width-1 unit unless its sanitized phoneme is empty. -/
def chineseUnits (caps : ConvCaps) : List Char → Nat → List ConvUnit
  | [], _ => []
  | c :: cs, pos =>
    let p := caps.phonC c
    if p.isEmpty then chineseUnits caps cs (pos + 1)
    else ⟨[c], pos, pos + 1, p⟩ :: chineseUnits caps cs (pos + 1)

/-- Units contributed by one token (`conversion.py` lines 100-124):
the `is_chinese` branch, the `is_alpha` branch (whole-token unit unless
its sanitized phoneme is empty), and the implicit else branch that
contributes nothing. -/
def tokenUnits (caps : ConvCaps) (t : TokenizedSegment) : List ConvUnit :=
  if isChineseTok t.raw then chineseUnits caps t.raw t.start
  else if isAlphaTok caps t.raw then
    let p := caps.phonE t.raw
    if p.isEmpty then [] else [⟨t.raw, t.start, t.stop, p⟩]
  else []

/-- All units of a token list, in order. -/
def convUnits (caps : ConvCaps) (toks : List TokenizedSegment) : List ConvUnit :=
  (toks.map (tokenUnits caps)).flatten

/-- Model of `IPAConverter.convert_to_grapheme_phoneme` (`conversion.py` lines
91-133): `grapheme_str` is the untouched input text; the four parallel
sequences collect the surviving units; phoneme spans accumulate by length
(the running `phoneme_cursor`). -/
def convert_to_grapheme_phoneme (caps : ConvCaps) (text : List Char) : GraphemePhoneme :=
  let units := convUnits caps (tokenizeFrom text 0)
  { grapheme_str := text
    grapheme_list := units.map (·.graph)
    phoneme_str := (units.map (·.phon)).flatten
    phoneme_list := units.map (·.phon)
    grapheme_spans := units.map (fun u => (u.gstart, u.gstop))
    phoneme_spans := cumulativeSpans (units.map (·.phon)) 0 }

/-! ## Reconstruction (`models.py` `from_components`, lines 94-129) -/

/-- Whether `pat` occurs at the very beginning of `l` (Boolean sublist-prefix
test used to model one probe of Python `str.find`). -/
def leadsWith : List Char → List Char → Bool
  | [], _ => true
  | _ :: _, [] => false
  | a :: as_, b :: bs => a == b && leadsWith as_ bs

/-- Scanning loop of `str.find(sub, start)`: probe positions `i`,
`i + 1`, … while fuel remains. -/
def findFromGo (gs pat : List Char) : Nat → Nat → Option Nat
  | _, 0 => none
  | i, fuel + 1 =>
    if leadsWith pat (gs.drop i) then some i else findFromGo gs pat (i + 1) fuel

/-- Python `grapheme_str.find(grapheme, cursor)` (`models.py` line 107):
the least index `≥ cursor` where `pat` occurs in `gs`, else `none`
(Python's `-1`). -/
def findFrom (gs pat : List Char) (cursor : Nat) : Option Nat :=
  findFromGo gs pat cursor (gs.length + 1 - cursor)

/-- The sequential-search loop of `from_components` (`models.py` lines
104-113): locate each grapheme unit starting at the end of the previous
match; `none` models the raised `ValueError`. -/
def locateSpans (gs : List Char) : List (List Char) → Nat → Option (List (Nat × Nat))
  | [], _ => some []
  | u :: rest, cursor =>
    match findFrom gs u cursor with
    | none => none
    | some idx =>
      (locateSpans gs rest (idx + u.length)).map (fun sps => (idx, idx + u.length) :: sps)

/-- Model of `GraphemePhoneme.from_components` (`models.py` lines 94-129): grapheme
spans by sequential location, phoneme spans by cumulative length, then the
validating constructor (`__post_init__`). -/
def from_components (gs : List Char) (gl : List (List Char)) (ps : List Char)
    (pl : List (List Char)) : Except String GraphemePhoneme :=
  match locateSpans gs gl 0 with
  | none => .error "Unable to locate grapheme segment in grapheme_str"
  | some gsp =>
    let g : GraphemePhoneme := ⟨gs, gl, ps, pl, gsp, cumulativeSpans pl 0⟩
    match post_init_check g with
    | .error msg => .error msg
    | .ok _ => .ok g

/-! ## Corrector (`correction.py`)

The alignment oracle (`lingpy`/`abydos`) is an external library; the
aligner enters `correct` as a function parameter, exactly as the
`aligner` constructor argument of `ASRCorrector` is injectable (the test
suite injects aligners returning `(score, start, end, match)` lists).
Scores are `ℚ`, alignment indices `ℤ` as produced by the oracle. -/

/-- The `AlignmentResult(score, start, end, match)` dataclass of `models.py`; the Python
attribute `end` is called `stop` here. -/
structure AlignmentResult where
  score : ℚ
  start : Int
  stop : Int
  match_ : GraphemePhoneme
deriving DecidableEq

/-- The `ReplacementPlan(score, start, end, replacement)` dataclass of `models.py`; the
Python attribute `end` is called `stop` here. -/
structure ReplacementPlan where
  score : ℚ
  start : Int
  stop : Int
  replacement : GraphemePhoneme
deriving DecidableEq

/-- Model of `ASRCorrector._align_entry` (`correction.py` lines 110-130): keep each
alignment result whose score is not below the threshold, as a
`ReplacementPlan` replacing with `entry`. -/
def align_entry (entry : GraphemePhoneme) (threshold : ℚ) :
    List AlignmentResult → List ReplacementPlan
  | [] => []
  | r :: rest =>
    if r.score < threshold then align_entry entry threshold rest
    else ⟨r.score, r.start, r.stop, entry⟩ :: align_entry entry threshold rest

/-- Sort key of `_filter_overlaps` (`correction.py` line 136):
`(match.start, -match.end)` ascending, i.e. start ascending and, on ties,
end descending. -/
def planLE (a b : ReplacementPlan) : Prop :=
  a.start < b.start ∨ (a.start = b.start ∧ b.stop ≤ a.stop)

instance (a b : ReplacementPlan) : Decidable (planLE a b) := by
  unfold planLE; exact inferInstance

instance : IsTotal ReplacementPlan planLE where
  total a b := by
    unfold planLE
    rcases lt_trichotomy a.start b.start with h | h | h
    · exact Or.inl (Or.inl h)
    · rcases le_total b.stop a.stop with h2 | h2
      · exact Or.inl (Or.inr ⟨h, h2⟩)
      · exact Or.inr (Or.inr ⟨h.symm, h2⟩)
    · exact Or.inr (Or.inl h)

instance : IsTrans ReplacementPlan planLE where
  trans a b c hab hbc := by
    unfold planLE at *
    rcases hab with h1 | ⟨h1, h1'⟩ <;> rcases hbc with h2 | ⟨h2, h2'⟩
    · exact Or.inl (h1.trans h2)
    · exact Or.inl (h2 ▸ h1)
    · exact Or.inl (h1 ▸ h2)
    · exact Or.inr ⟨h1.trans h2, h2'.trans h1'⟩

/-- Sort key of `_candidate_replacements` (`correction.py` lines 74-76):
`(-match.score, match.start, match.end)` ascending. -/
def candLE (a b : ReplacementPlan) : Prop :=
  b.score < a.score ∨ (a.score = b.score ∧
    (a.start < b.start ∨ (a.start = b.start ∧ a.stop ≤ b.stop)))

instance (a b : ReplacementPlan) : Decidable (candLE a b) := by
  unfold candLE; exact inferInstance

/-- The greedy acceptance loop of `_filter_overlaps` (`correction.py`
lines 137-144): skip a candidate starting before `current_end`, otherwise
accept it and move `current_end` to its end. -/
def greedyFilter : List ReplacementPlan → Int → List ReplacementPlan
  | [], _ => []
  | m :: rest, currentEnd =>
    if m.start < currentEnd then greedyFilter rest currentEnd
    else m :: greedyFilter rest m.stop

/-- Model of `ASRCorrector._filter_overlaps` (`correction.py` lines 132-144).
Python's `sorted` is a stable sort by the key; any stable sort by the same
total preorder yields the same list, modelled by Mathlib's stable
`insertionSort`.  `current_end` starts at `-1`. -/
def filter_overlaps (ms : List ReplacementPlan) : List ReplacementPlan :=
  greedyFilter (List.insertionSort planLE ms) (-1)

/-- Model of `ASRCorrector._candidate_replacements` (`correction.py` lines 66-76):
no entries yields no candidates; otherwise align each entry and sort by
`(-score, start, end)` (again a stable Python `sorted`). -/
def candidate_replacements (sentence_gp : GraphemePhoneme) (entries : List GraphemePhoneme)
    (threshold : ℚ) (aligner : GraphemePhoneme → GraphemePhoneme → List AlignmentResult) :
    List ReplacementPlan :=
  if entries.isEmpty then []
  else
    List.insertionSort candLE
      ((entries.map (fun e => align_entry e threshold (aligner sentence_gp e))).flatten)

/-- Python slice `s[a:b]` for arbitrary `int` bounds: negative indices
count from the end, then both bounds clamp to `[0, len(s)]`. -/
def pySlice (s : List Char) (a b : Int) : List Char :=
  let n : Int := s.length
  let norm : Int → Nat := fun i => (if i < 0 then max 0 (n + i) else min i n).toNat
  (s.drop (norm a)).take (norm b - norm a)

/-- Model of `ASRCorrector._apply_replacements` (`correction.py` lines 146-157):
copy up to each match's start, insert the replacement's grapheme string,
resume after the match's end; finally copy the tail. -/
def applyReplacements (text : List Char) : List ReplacementPlan → Int → List Char
  | [], cursor => pySlice text cursor (text.length : Int)
  | m :: rest, cursor =>
    pySlice text cursor m.start ++ m.replacement.grapheme_str
      ++ applyReplacements text rest m.stop

/-- Maximum candidate score, `max(candidate.score for candidate in
candidates)` over a non-empty list (`correction.py` line 46). -/
def bestScore : List ReplacementPlan → ℚ
  | [] => 0
  | c :: rest => (rest.map (·.score)).foldl max c.score

/-- Model of `ASRCorrector.correct` (`correction.py` lines 34-55): empty sentence
unchanged; convert once; no candidates → the converted `grapheme_str`
(which is the input text); keep the max-score ties, resolve overlaps,
splice. -/
def correct (caps : ConvCaps) (entries : List GraphemePhoneme) (threshold : ℚ)
    (aligner : GraphemePhoneme → GraphemePhoneme → List AlignmentResult)
    (sentence : List Char) : List Char :=
  if sentence.isEmpty then sentence
  else
    let sentence_gp := convert_to_grapheme_phoneme caps sentence
    let candidates := candidate_replacements sentence_gp entries threshold aligner
    if candidates.isEmpty then sentence_gp.grapheme_str
    else
      let best := bestScore candidates
      let filtered := filter_overlaps (candidates.filter (fun c => c.score == best))
      if filtered.isEmpty then sentence_gp.grapheme_str
      else applyReplacements sentence_gp.grapheme_str filtered 0

/-! ## Alignment oracle adapter (spec §4.4)

Modelled from the spec: the adapter that translates the oracle's aligned
token streams into `(phonemeStart, phonemeEnd)` candidate ranges in the
sentence's phoneme space is not present under `src/` — `alignment.py`
returns raw alignment strings without offsets, and `correction.py` only
consumes ready-made `(score, start, end, match)` candidates — so the
lock-step cursor walk of §4.4 is modelled from the spec's words: gap
token `"-"`, region marker `"‖"`, whitespace separators are not content;
the sentence-side cursor advances by the literal length of each content
token; the candidate range runs from the cursor before the first
position where both sides are content to the cursor after the last such
position; a marker-only alignment yields no candidate. -/

/-- A token of the oracle output that is not matched content: the gap
marker, the region marker, or separator whitespace. -/
def isMarkerTok (t : List Char) : Bool :=
  t == ['-'] || t == ['‖'] || t.all (·.isWhitespace)

/-- The lock-step walk over index-parallel aligned token pairs, carrying
the sentence-side cursor and the recorded range so far. -/
def walkAligned : List (List Char × List Char) → Nat → Option (Nat × Nat) → Option (Nat × Nat)
  | [], _, acc => acc
  | (s, q) :: rest, cur, acc =>
    let cur' := if isMarkerTok s then cur else cur + s.length
    if !isMarkerTok s && !isMarkerTok q then
      walkAligned rest cur'
        (match acc with
         | none => some (cur, cur')
         | some (f, _) => some (f, cur'))
    else walkAligned rest cur' acc

/-- The adapter's candidate range for one oracle result. -/
def adapterCandidate (sToks qToks : List (List Char)) : Option (Nat × Nat) :=
  walkAligned (sToks.zip qToks) 0 none

/-- Total length of the content tokens on the sentence side — the length
of the matched portion of the sentence's `phoneme_text`. -/
def contentLen (sToks : List (List Char)) : Nat :=
  (sToks.map (fun t => if isMarkerTok t then 0 else t.length)).sum

/-- Content length of the sentence side of already-zipped token pairs. -/
def pairContentLen (ps : List (List Char × List Char)) : Nat :=
  (ps.map (fun pr => if isMarkerTok pr.1 then 0 else pr.1.length)).sum

/-! ## Specification predicates -/

/-- The segments starting at `pos` are in order, gap-free, non-overlapping
and non-empty: each starts where the previous one stopped and spans
exactly its own text. -/
def segmentsTile : Nat → List TokenizedSegment → Prop
  | _, [] => True
  | pos, t :: rest => t.start = pos ∧ t.stop = pos + t.raw.length ∧ t.raw ≠ [] ∧
      segmentsTile t.stop rest

/-- Every character of `gs` at a position in `[c, p)` is of class
`other` (the inter-unit gap consists of pass-through text only). -/
def gapOther (gs : List Char) (c p : Nat) : Prop :=
  ∀ q a t, c ≤ q → q < p → gs.drop q = a :: t → classOf a = .other

/-- No unit of these tokens is dropped by the converter: every ideograph
character and every alphabetic token has a non-empty sanitized phoneme. -/
def noDrop (caps : ConvCaps) (toks : List TokenizedSegment) : Prop :=
  ∀ t ∈ toks,
    (isChineseTok t.raw = true → ∀ c ∈ t.raw, caps.phonC c ≠ []) ∧
    (isChineseTok t.raw = false → isAlphaTok caps t.raw = true → caps.phonE t.raw ≠ [])

/-! ## Concrete instances used by witnesses and counterexamples -/

/-- A trivial valid `GraphemePhoneme` (all components empty). -/
def dummyGP : GraphemePhoneme := ⟨[], [], [], [], [], []⟩

/-- One unit, grapheme `"a"`, phoneme `"xy"`. -/
def gC1ex : GraphemePhoneme :=
  ⟨['a'], [['a']], ['x', 'y'], [['x', 'y']], [(0, 1)], [(0, 2)]⟩

/-- Two units, graphemes `"a"`,`"b"`, phonemes `"X"`,`"Y"`. -/
def g9ex : GraphemePhoneme :=
  ⟨['a', 'b'], [['a'], ['b']], ['X', 'Y'], [['X'], ['Y']], [(0, 1), (1, 2)], [(0, 1), (1, 2)]⟩

/-- Passes `__post_init__` although its phoneme span is not contiguous
starting at 0. -/
def gNCex : GraphemePhoneme := ⟨['a'], [['a']], ['X'], [['X']], [(0, 1)], [(5, 6)]⟩

/-- The three spec-example overlap candidates, tied at score 1. -/
def pEx1 : ReplacementPlan := ⟨1, 0, 5, dummyGP⟩

/-- Second spec-example candidate. -/
def pEx2 : ReplacementPlan := ⟨1, 2, 8, dummyGP⟩

/-- Third spec-example candidate. -/
def pEx3 : ReplacementPlan := ⟨1, 6, 9, dummyGP⟩

/-- Capabilities where the token `"ab"` sanitizes to nothing (dropped)
while `"b"` survives: exercises the dropped-unit path of the converter. -/
def capsC4 : ConvCaps :=
  ⟨fun _ => [], fun t => if t = ['b'] then ['B'] else [],
   fun c => classOf c == ScriptClass.latin⟩

/-- The text `"ab b"`: the dropped token `"ab"` contains the surviving
unit `"b"` as a substring before the unit's own position. -/
def txtC4 : List Char := ['a', 'b', ' ', 'b']

/-- Capabilities with constant non-empty phonemes (nothing dropped). -/
def capsW4 : ConvCaps :=
  ⟨fun _ => ['p'], fun _ => ['q'], fun c => classOf c == ScriptClass.latin⟩

/-- The text `"a好"`: one Latin token and one ideograph token. -/
def txtW4 : List Char := ['a', '好']

/-- Two alignment results, scoring exactly 1/2 and 499/1000. -/
def resultsW5 : List AlignmentResult :=
  [⟨1/2, 0, 1, dummyGP⟩, ⟨499/1000, 0, 1, dummyGP⟩]

/-- An aligner returning no results. -/
def alignerNone : GraphemePhoneme → GraphemePhoneme → List AlignmentResult := fun _ _ => []

/-- An aligner returning a single result of score 0. -/
def alignerLow : GraphemePhoneme → GraphemePhoneme → List AlignmentResult :=
  fun _ _ => [⟨0, 0, 1, dummyGP⟩]

/-! # Theorems -/

/-! ## Helper lemmas -/

theorem cumulativeSpans_length (l : List (List Char)) : ∀ n, (cumulativeSpans l n).length = l.length := by
  induction l with
  | nil => intro n; rfl
  | cons v rest ih => intro n; simp [cumulativeSpans, ih]

theorem cumulativeSpans_contiguous (l : List (List Char)) :
    ∀ n, contiguousFrom n (cumulativeSpans l n) := by
  induction l with
  | nil => intro n; trivial
  | cons v rest ih =>
    intro n
    exact ⟨rfl, Nat.le_add_right n v.length, ih (n + v.length)⟩

theorem post_init_ok_iff (g : GraphemePhoneme) :
    post_init_ok g = true ↔
      (g.grapheme_list.length = g.phoneme_list.length ∧
       g.grapheme_spans.length = g.grapheme_list.length ∧
       g.phoneme_spans.length = g.phoneme_list.length ∧
       g.phoneme_list.flatten = g.phoneme_str) := by
  unfold post_init_ok post_init_check
  split_ifs with h1 h2 h3 h4 <;> simp_all

/-! ## C10 -/

/-- C10: for every GraphemePhoneme `g` and all integers `start ≥ end` (an
empty or inverted phoneme range), `subsequence_covering_span` returns
`none`, regardless of `g`'s contents, without raising (the model is a
total function). -/
theorem c10_empty_range_returns_none (g : GraphemePhoneme) (s e : Int) (h : s ≥ e) :
    subsequence_covering_span g s e = none := by
  unfold subsequence_covering_span
  rw [if_pos h]

/-- Witness for C10 at `g = gC1ex`, `start = 1`, `end = 0`. -/
theorem c10_empty_range_returns_none_witness :
    subsequence_covering_span gC1ex 1 0 = none :=
  c10_empty_range_returns_none gC1ex 1 0 (by decide)

/-! ## C6 -/

/-- Counterexample for C6: `gNCex` has `phoneme_spans = [(5, 6)]`, which
is not contiguous starting at 0, yet `__post_init__` accepts it — the
claimed contiguity invariant is not checked at construction. -/
theorem c6_counterexample :
    post_init_check gNCex = .ok () ∧ gNCex.phoneme_spans = [(5, 6)] ∧
      ¬ contiguousFrom 0 gNCex.phoneme_spans := by
  refine ⟨rfl, rfl, ?_⟩
  intro h
  simp [gNCex, contiguousFrom] at h

/-- C6 as amended: construction checks exactly the three length
equalities and the phoneme concatenation equality, raising iff one of
them is violated; contiguity of `phoneme_spans` is not checked. -/
theorem c6_construction_checks (g : GraphemePhoneme) :
    (∃ msg, post_init_check g = .error msg) ↔
      ¬ (g.grapheme_list.length = g.phoneme_list.length ∧
         g.grapheme_spans.length = g.grapheme_list.length ∧
         g.phoneme_spans.length = g.phoneme_list.length ∧
         g.phoneme_list.flatten = g.phoneme_str) := by
  rw [← post_init_ok_iff]
  unfold post_init_ok
  cases h : post_init_check g with
  | ok u => simp
  | error msg => simp

/-! ## C2 -/

theorem greedyFilter_head_start (l : List ReplacementPlan) :
    ∀ c x, (greedyFilter l c).head? = some x → c ≤ x.start := by
  induction l with
  | nil => intro c x h; simp [greedyFilter] at h
  | cons m rest ih =>
    intro c x h
    unfold greedyFilter at h
    split at h
    · exact ih c x h
    · rw [List.head?_cons, Option.some_inj] at h
      subst h
      omega

theorem greedyFilter_chain (l : List ReplacementPlan) :
    ∀ c, List.Chain' (fun a b => a.stop ≤ b.start) (greedyFilter l c) := by
  induction l with
  | nil => intro c; simp [greedyFilter]
  | cons m rest ih =>
    intro c
    unfold greedyFilter
    split
    · exact ih c
    · rw [List.chain'_cons']
      refine ⟨?_, ih m.stop⟩
      intro y hy
      exact greedyFilter_head_start rest m.stop y hy

theorem greedyFilter_sublist (l : List ReplacementPlan) :
    ∀ c, (greedyFilter l c).Sublist l := by
  induction l with
  | nil => intro c; simp [greedyFilter]
  | cons m rest ih =>
    intro c
    unfold greedyFilter
    split
    · exact (ih c).cons m
    · exact (ih m.stop).cons₂ m

theorem chain_starts_pairwise :
    ∀ l : List ReplacementPlan,
      List.Chain' (fun a b => a.stop ≤ b.start) l →
      List.Pairwise (fun a b => a.start ≤ b.start) l →
      List.Pairwise (fun a b => a.stop ≤ b.start ∧ a.start ≤ b.start) l := by
  intro l
  induction l with
  | nil => intro _ _; exact List.Pairwise.nil
  | cons a t ih =>
    intro hc hp
    rw [List.pairwise_cons] at hp ⊢
    refine ⟨?_, ih hc.tail hp.2⟩
    intro b hb
    refine ⟨?_, hp.1 b hb⟩
    cases t with
    | nil => cases hb
    | cons h0 t' =>
      have hah : a.stop ≤ h0.start := (List.chain'_cons'.mp hc).1 h0 rfl
      rw [List.mem_cons] at hb
      rcases hb with rfl | hb'
      · exact hah
      · have : h0.start ≤ b.start := by
          have hpt := hp.2
          rw [List.pairwise_cons] at hpt
          exact hpt.1 b hb'
        omega

/-- C2: `_filter_overlaps` sorts by `(graphemeStart ascending, graphemeEnd
descending)` and greedily accepts a candidate iff its start is not below
`current_end` (initially −1); on the spec's example `[(0,5),(2,8),(6,9)]`
(tied at the max score) it accepts exactly `[(0,5),(6,9)]`, and for every
input the accepted set is non-overlapping and in ascending start order. -/
theorem c2_overlap_resolution :
    filter_overlaps [pEx1, pEx2, pEx3] = [pEx1, pEx3] ∧
    ∀ ms : List ReplacementPlan,
      (filter_overlaps ms).Pairwise (fun a b => a.stop ≤ b.start ∧ a.start ≤ b.start) := by
  constructor
  · decide
  · intro ms
    unfold filter_overlaps
    apply chain_starts_pairwise
    · exact greedyFilter_chain _ _
    · have hs : (List.insertionSort planLE ms).Pairwise planLE :=
        List.sorted_insertionSort planLE ms
      have hsub := greedyFilter_sublist (List.insertionSort planLE ms) (-1)
      refine (List.Pairwise.sublist hsub hs).imp ?_
      intro a b hab
      rcases hab with h | ⟨h, _⟩
      · exact le_of_lt h
      · exact le_of_eq h

/-! ## C5 -/

/-- C5: `_align_entry` accepts a candidate whose score equals the
threshold (it becomes a `ReplacementPlan`) and rejects one strictly below:
every plan produced carries a score `≥` the threshold. -/
theorem c5_threshold_boundary (entry : GraphemePhoneme) (thr : ℚ)
    (results : List AlignmentResult) :
    (∀ r ∈ results, r.score = thr →
      (⟨r.score, r.start, r.stop, entry⟩ : ReplacementPlan) ∈ align_entry entry thr results) ∧
    (∀ p ∈ align_entry entry thr results, thr ≤ p.score) := by
  induction results with
  | nil =>
    refine ⟨?_, ?_⟩
    · intro r hr; cases hr
    · intro p hp; simp [align_entry] at hp
  | cons r rest ih =>
    constructor
    · intro r' hr' hscore
      rw [List.mem_cons] at hr'
      unfold align_entry
      rcases hr' with rfl | hr''
      · rw [if_neg (by rw [hscore]; exact lt_irrefl thr)]
        exact List.mem_cons_self _ _
      · by_cases hlt : r.score < thr
        · rw [if_pos hlt]; exact ih.1 r' hr'' hscore
        · rw [if_neg hlt]; exact List.mem_cons_of_mem _ (ih.1 r' hr'' hscore)
    · intro p hp
      unfold align_entry at hp
      by_cases hlt : r.score < thr
      · rw [if_pos hlt] at hp; exact ih.2 p hp
      · rw [if_neg hlt, List.mem_cons] at hp
        rcases hp with rfl | hp'
        · exact le_of_not_lt hlt
        · exact ih.2 p hp'

/-- Witness for C5: with threshold 1/2 the score-1/2 result is accepted
and every accepted plan (in particular none of score 499/1000) has score
`≥ 1/2`. -/
theorem c5_threshold_boundary_witness :
    (⟨1/2, 0, 1, dummyGP⟩ : ReplacementPlan) ∈ align_entry dummyGP (1/2) resultsW5 ∧
    ∀ p ∈ align_entry dummyGP (1/2) resultsW5, (1/2 : ℚ) ≤ p.score :=
  ⟨(c5_threshold_boundary dummyGP (1/2) resultsW5).1 ⟨1/2, 0, 1, dummyGP⟩
      (by simp [resultsW5]) rfl,
   (c5_threshold_boundary dummyGP (1/2) resultsW5).2⟩

/-! ## C3 -/

theorem convert_post_init_ok (caps : ConvCaps) (text : List Char) :
    post_init_check (convert_to_grapheme_phoneme caps text) = .ok () := by
  unfold post_init_check convert_to_grapheme_phoneme
  simp [cumulativeSpans_length]

theorem align_entry_nil_of_low (entry : GraphemePhoneme) (thr : ℚ)
    (results : List AlignmentResult) (h : ∀ r ∈ results, r.score < thr) :
    align_entry entry thr results = [] := by
  induction results with
  | nil => rfl
  | cons r rest ih =>
    unfold align_entry
    rw [if_pos (h r (List.mem_cons_self _ _))]
    exact ih fun r' hr' => h r' (List.mem_cons_of_mem _ hr')

/-- C3: `correct(s)` returns `s` unchanged when `s` is empty, when the
lexicon is empty, and when no candidate survives the score threshold; no
error is raised in any of these cases (the conversion passes the
validating constructor, and the model is total). -/
theorem c3_noop_cases (caps : ConvCaps) (entries : List GraphemePhoneme) (thr : ℚ)
    (aligner : GraphemePhoneme → GraphemePhoneme → List AlignmentResult) (s : List Char) :
    post_init_check (convert_to_grapheme_phoneme caps s) = .ok () ∧
    (s = [] → correct caps entries thr aligner s = s) ∧
    (entries = [] → correct caps entries thr aligner s = s) ∧
    ((∀ e ∈ entries, ∀ r ∈ aligner (convert_to_grapheme_phoneme caps s) e, r.score < thr) →
      correct caps entries thr aligner s = s) := by
  refine ⟨convert_post_init_ok caps s, ?_, ?_, ?_⟩
  · intro hs
    subst hs
    rfl
  · intro he
    subst he
    unfold correct
    split
    · rfl
    · have hc : candidate_replacements (convert_to_grapheme_phoneme caps s) [] thr aligner
          = [] := rfl
      simp only [hc, List.isEmpty_nil, if_true]
      rfl
  · intro hlow
    unfold correct
    split
    · rfl
    · have hcands : candidate_replacements (convert_to_grapheme_phoneme caps s) entries
          thr aligner = [] := by
        unfold candidate_replacements
        split
        · rfl
        · have : (entries.map (fun e =>
              align_entry e thr (aligner (convert_to_grapheme_phoneme caps s) e))).flatten
              = [] := by
            rw [List.flatten_eq_nil_iff]
            intro l hl
            rw [List.mem_map] at hl
            obtain ⟨e, he, rfl⟩ := hl
            exact align_entry_nil_of_low e thr _ (hlow e he)
          rw [this]
          rfl
      simp only [hcands, List.isEmpty_nil, if_true]
      rfl

/-- Witness for C3: empty sentence, empty lexicon, and an
all-below-threshold aligner each leave the input unchanged. -/
theorem c3_noop_cases_witness :
    correct capsW4 [dummyGP] (1/2) alignerNone [] = [] ∧
    correct capsW4 [] (1/2) alignerNone ['a'] = ['a'] ∧
    correct capsW4 [dummyGP] (1/2) alignerLow ['a'] = ['a'] :=
  ⟨(c3_noop_cases capsW4 [dummyGP] (1/2) alignerNone []).2.1 rfl,
   (c3_noop_cases capsW4 [] (1/2) alignerNone ['a']).2.2.1 rfl,
   (c3_noop_cases capsW4 [dummyGP] (1/2) alignerLow ['a']).2.2.2 (by
     intro e he r hr
     simp [alignerLow] at hr
     rw [hr]
     norm_num)⟩

/-! ## C8 -/

theorem tokenizeGo_fuel :
    ∀ (f1 : Nat) (l : List Char) (f2 pos : Nat), l.length ≤ f1 → l.length ≤ f2 →
      tokenizeGo f1 l pos = tokenizeGo f2 l pos := by
  intro f1
  induction f1 with
  | zero =>
    intro l f2 pos h1 h2
    rw [Nat.le_zero, List.length_eq_zero] at h1
    subst h1
    cases f2 <;> rfl
  | succ f1 ih =>
    intro l f2 pos h1 h2
    cases l with
    | nil => cases f2 <;> rfl
    | cons c rest =>
      cases f2 with
      | zero =>
        simp only [List.length_cons] at h2
        omega
      | succ f2 =>
        simp only [tokenizeGo]
        congr 1
        have hd : (rest.dropWhile (fun d => classOf d == classOf c)).length ≤ rest.length :=
          (List.dropWhile_sublist _).length_le
        simp only [List.length_cons] at h1 h2
        exact ih _ _ _ (by omega) (by omega)

theorem tokenizeFrom_cons (c : Char) (rest : List Char) (pos : Nat) :
    tokenizeFrom (c :: rest) pos
      = ⟨c :: rest.takeWhile (fun d => classOf d == classOf c), pos,
         pos + 1 + (rest.takeWhile (fun d => classOf d == classOf c)).length⟩ ::
        tokenizeFrom (rest.dropWhile (fun d => classOf d == classOf c))
          (pos + 1 + (rest.takeWhile (fun d => classOf d == classOf c)).length) := by
  show tokenizeGo (c :: rest).length (c :: rest) pos = _
  simp only [List.length_cons]
  rw [tokenizeGo]
  congr 1
  exact tokenizeGo_fuel rest.length _ _ _ (List.dropWhile_sublist _).length_le le_rfl

theorem tokenizeFrom_flatten :
    ∀ (n : Nat) (text : List Char) (pos : Nat), text.length ≤ n →
      ((tokenizeFrom text pos).map (·.raw)).flatten = text := by
  intro n
  induction n with
  | zero =>
    intro text pos h
    rw [Nat.le_zero, List.length_eq_zero] at h
    subst h
    rfl
  | succ n ih =>
    intro text pos h
    cases text with
    | nil => rfl
    | cons c rest =>
      rw [tokenizeFrom_cons]
      simp only [List.map_cons, List.flatten_cons]
      rw [ih _ _ (le_trans (List.Sublist.length_le (List.dropWhile_sublist _))
        (by simpa using Nat.le_of_succ_le_succ h))]
      simp [List.takeWhile_append_dropWhile]

theorem tokenizeFrom_tile :
    ∀ (n : Nat) (text : List Char) (pos : Nat), text.length ≤ n →
      segmentsTile pos (tokenizeFrom text pos) := by
  intro n
  induction n with
  | zero =>
    intro text pos h
    rw [Nat.le_zero, List.length_eq_zero] at h
    subst h
    trivial
  | succ n ih =>
    intro text pos h
    cases text with
    | nil => trivial
    | cons c rest =>
      rw [tokenizeFrom_cons]
      refine ⟨rfl, by simp [List.length_cons]; omega, by simp, ?_⟩
      exact ih _ _ (le_trans (List.Sublist.length_le (List.dropWhile_sublist _))
        (by simpa using Nat.le_of_succ_le_succ h))

/-- C8: tokenization is total for every input (the model is a total
function), the empty string yields zero segments, the segments are in
order, gap-free, non-overlapping and non-empty, and concatenating their
texts in order reproduces the input exactly. -/
theorem c8_tokenization (text : List Char) :
    tokenize_mixed_text ([] : List Char) = [] ∧
    ((tokenize_mixed_text text).map (·.raw)).flatten = text ∧
    segmentsTile 0 (tokenize_mixed_text text) :=
  ⟨rfl, tokenizeFrom_flatten text.length text 0 le_rfl,
   tokenizeFrom_tile text.length text 0 le_rfl⟩

/-! ## C1 and C9: the span-projection algebra -/

theorem selectedIndicesFrom_mem (s e : Int) :
    ∀ (sps : List (Nat × Nat)) (n i : Nat),
      i ∈ selectedIndicesFrom s e sps n ↔
        ∃ j sp, sps[j]? = some sp ∧ i = n + j ∧ overlapB s e sp = true := by
  intro sps
  induction sps with
  | nil => intro n i; simp [selectedIndicesFrom]
  | cons sp rest ih =>
    intro n i
    unfold selectedIndicesFrom
    by_cases hov : overlapB s e sp = true
    · rw [if_pos hov, List.mem_cons, ih (n + 1) i]
      constructor
      · rintro (rfl | ⟨j, sp', hj, rfl, hov'⟩)
        · exact ⟨0, sp, by simp, by omega, hov⟩
        · exact ⟨j + 1, sp', by simpa using hj, by omega, hov'⟩
      · rintro ⟨j, sp', hj, rfl, hov'⟩
        cases j with
        | zero =>
          left
          omega
        | succ j => exact Or.inr ⟨j, sp', by simpa using hj, by omega, hov'⟩
    · rw [if_neg hov, ih (n + 1) i]
      constructor
      · rintro ⟨j, sp', hj, rfl, hov'⟩
        exact ⟨j + 1, sp', by simpa using hj, by omega, hov'⟩
      · rintro ⟨j, sp', hj, rfl, hov'⟩
        cases j with
        | zero =>
          exfalso
          simp only [List.getElem?_cons_zero, Option.some_inj] at hj
          subst hj
          exact hov hov'
        | succ j => exact ⟨j, sp', by simpa using hj, by omega, hov'⟩

theorem selectedIndicesFrom_bounds (s e : Int) (sps : List (Nat × Nat)) (n : Nat) :
    ∀ i ∈ selectedIndicesFrom s e sps n, n ≤ i ∧ i < n + sps.length := by
  intro i hi
  rw [selectedIndicesFrom_mem] at hi
  obtain ⟨j, sp, hj, rfl, _⟩ := hi
  rw [List.getElem?_eq_some_iff] at hj
  obtain ⟨hjl, _⟩ := hj
  omega

theorem selectedIndicesFrom_pairwise (s e : Int) :
    ∀ (sps : List (Nat × Nat)) (n : Nat),
      (selectedIndicesFrom s e sps n).Pairwise (· < ·) := by
  intro sps
  induction sps with
  | nil => intro n; simp [selectedIndicesFrom]
  | cons sp rest ih =>
    intro n
    unfold selectedIndicesFrom
    by_cases hov : overlapB s e sp = true
    · rw [if_pos hov, List.pairwise_cons]
      refine ⟨?_, ih (n + 1)⟩
      intro i hi
      have := (selectedIndicesFrom_bounds s e rest (n + 1) i hi).1
      omega
    · rw [if_neg hov]
      exact ih (n + 1)

theorem head_le_getLast_of_lt_pairwise (l : List Nat) (a b : Nat)
    (hp : l.Pairwise (· < ·)) (ha : l.head? = some a) (hb : l.getLast? = some b) :
    a ≤ b := by
  rw [List.head?_eq_some_iff] at ha
  obtain ⟨ys, rfl⟩ := ha
  have hbmem : b ∈ a :: ys := by
    rw [List.getLast?_eq_some_iff] at hb
    obtain ⟨zs, heq⟩ := hb
    rw [heq]
    exact List.mem_append_right _ (List.mem_singleton_self b)
  rw [List.mem_cons] at hbmem
  rcases hbmem with rfl | hmem
  · exact le_refl b
  · exact le_of_lt ((List.pairwise_cons.mp hp).1 b hmem)

theorem subsequence_none_iff (g : GraphemePhoneme) (s e : Int) (hrange : s < e) :
    subsequence_covering_span g s e = none ↔ selectedIndices g s e = [] := by
  unfold subsequence_covering_span
  rw [if_neg (not_le.mpr hrange)]
  cases hsel : selectedIndices g s e with
  | nil => simp
  | cons x xs =>
    obtain ⟨y, hy⟩ : ∃ y, (x :: xs).getLast? = some y :=
      ⟨(x :: xs).getLast (by simp), List.getLast?_eq_getLast _ (by simp)⟩
    simp [hy]

theorem selectedIndices_nil_iff (g : GraphemePhoneme) (s e : Int) :
    selectedIndices g s e = [] ↔ ∀ sp ∈ g.phoneme_spans, overlapB s e sp = false := by
  constructor
  · intro h sp hsp
    by_contra hov
    rw [Bool.not_eq_false] at hov
    rw [List.mem_iff_getElem?] at hsp
    obtain ⟨j, hj⟩ := hsp
    have : j ∈ selectedIndices g s e := by
      rw [selectedIndices, selectedIndicesFrom_mem]
      exact ⟨j, sp, hj, (Nat.zero_add j).symm, hov⟩
    rw [h] at this
    cases this
  · intro h
    cases hsel : selectedIndices g s e with
    | nil => rfl
    | cons x xs =>
      exfalso
      have hx : x ∈ selectedIndices g s e := by
        rw [hsel]
        exact List.mem_cons_self _ _
      rw [selectedIndices, selectedIndicesFrom_mem] at hx
      obtain ⟨j, sp, hj, rfl, hov⟩ := hx
      rw [h sp (List.getElem?_mem hj)] at hov
      cases hov

theorem subsequence_shape (g : GraphemePhoneme) (s e : Int) (r : GraphemePhoneme)
    (hres : subsequence_covering_span g s e = some r) :
    ∃ first last,
      s < e ∧
      (selectedIndices g s e).head? = some first ∧
      (selectedIndices g s e).getLast? = some last ∧
      first ≤ last ∧ last < g.phoneme_spans.length ∧
      r = { grapheme_str := (g.grapheme_str.drop (g.grapheme_spans.getD first (0, 0)).1).take
              ((g.grapheme_spans.getD last (0, 0)).2 - (g.grapheme_spans.getD first (0, 0)).1)
            grapheme_list := (g.grapheme_list.drop first).take (last + 1 - first)
            phoneme_str := ((g.phoneme_list.drop first).take (last + 1 - first)).flatten
            phoneme_list := (g.phoneme_list.drop first).take (last + 1 - first)
            grapheme_spans := ((g.grapheme_spans.drop first).take (last + 1 - first)).map
              (fun sp => (sp.1 - (g.grapheme_spans.getD first (0, 0)).1,
                          sp.2 - (g.grapheme_spans.getD first (0, 0)).1))
            phoneme_spans :=
              cumulativeSpans ((g.phoneme_list.drop first).take (last + 1 - first)) 0 } := by
  unfold subsequence_covering_span at hres
  by_cases hge : s ≥ e
  · rw [if_pos hge] at hres
    cases hres
  · rw [if_neg hge] at hres
    cases hh : (selectedIndices g s e).head? with
    | none =>
      rw [hh] at hres
      cases hl : (selectedIndices g s e).getLast? with
      | none => rw [hl] at hres; cases hres
      | some y => rw [hl] at hres; cases hres
    | some first =>
      rw [hh] at hres
      cases hl : (selectedIndices g s e).getLast? with
      | none => rw [hl] at hres; cases hres
      | some last =>
        rw [hl] at hres
        simp only [Option.some_inj] at hres
        refine ⟨first, last, lt_of_not_ge hge, rfl, rfl, ?_, ?_, hres.symm⟩
        · exact head_le_getLast_of_lt_pairwise _ first last
            (selectedIndicesFrom_pairwise s e g.phoneme_spans 0) hh hl
        · have hmem : last ∈ selectedIndices g s e := by
            rw [List.getLast?_eq_some_iff] at hl
            obtain ⟨zs, heq⟩ := hl
            rw [heq]
            exact List.mem_append_right _ (List.mem_singleton_self last)
          have := (selectedIndicesFrom_bounds s e g.phoneme_spans 0 last hmem).2
          omega

/-- Counterexample for C1: on `gC1ex` (single unit with phoneme span
`(0, 2)`) and the empty half-open range `[1, 1)`, the unit satisfies the
claim's overlap criterion (`spanEnd > start` and `spanStart < end`), yet
`subsequence_covering_span` returns `none` because of its `start >= end`
guard — contradicting the claim that `none` is returned only when no unit
overlaps. -/
theorem c1_counterexample :
    overlapB 1 1 ((0 : Nat), (2 : Nat)) = true ∧ gC1ex.phoneme_spans = [(0, 2)] ∧
    subsequence_covering_span gC1ex 1 1 = none :=
  ⟨by decide, by decide, by decide⟩

/-- C1 as amended: for every constructor-accepted `g` and every range
with `start < end`, `subsequence_covering_span` selects exactly the unit
indices whose phoneme span overlaps the range, returns `none` iff no unit
overlaps, and otherwise returns an object built from the contiguous run
of units from the first to the last selected index whose `grapheme_str`
is `g.grapheme_str` sliced from the first selected unit's grapheme start
to the last selected unit's grapheme end — a literal substring of
`g.grapheme_str`.  (For `start ≥ end` the function returns `none`
unconditionally; see C10.) -/
theorem c1_span_projection (g : GraphemePhoneme) (s e : Int)
    (hval : post_init_ok g = true) (hrange : s < e) :
    (subsequence_covering_span g s e = none ↔
      ∀ sp ∈ g.phoneme_spans, overlapB s e sp = false) ∧
    (∀ i, i ∈ selectedIndices g s e ↔
      ∃ sp, g.phoneme_spans[i]? = some sp ∧ overlapB s e sp = true) ∧
    (∀ r, subsequence_covering_span g s e = some r →
      ∃ first last fsp lsp,
        (selectedIndices g s e).head? = some first ∧
        (selectedIndices g s e).getLast? = some last ∧
        first ≤ last ∧
        g.grapheme_spans[first]? = some fsp ∧
        g.grapheme_spans[last]? = some lsp ∧
        r.grapheme_list = (g.grapheme_list.drop first).take (last + 1 - first) ∧
        r.phoneme_list = (g.phoneme_list.drop first).take (last + 1 - first) ∧
        r.grapheme_str = (g.grapheme_str.drop fsp.1).take (lsp.2 - fsp.1) ∧
        ∃ pre post, pre ++ r.grapheme_str ++ post = g.grapheme_str) := by
  rw [post_init_ok_iff] at hval
  obtain ⟨h1, h2, h3, h4⟩ := hval
  refine ⟨(subsequence_none_iff g s e hrange).trans (selectedIndices_nil_iff g s e), ?_, ?_⟩
  · intro i
    rw [selectedIndices, selectedIndicesFrom_mem]
    constructor
    · rintro ⟨j, sp, hj, rfl, hov⟩
      exact ⟨sp, by simpa using hj, hov⟩
    · rintro ⟨sp, hsp, hov⟩
      exact ⟨i, sp, hsp, (Nat.zero_add i).symm, hov⟩
  · intro r hr
    obtain ⟨first, last, _, hh, hl, hfl, hlast, rfl⟩ := subsequence_shape g s e r hr
    have hglen : g.grapheme_spans.length = g.phoneme_spans.length := by omega
    have hlast' : last < g.grapheme_spans.length := by omega
    have hfirst' : first < g.grapheme_spans.length := by omega
    refine ⟨first, last, g.grapheme_spans[first], g.grapheme_spans[last], hh, hl, hfl,
      List.getElem?_eq_getElem hfirst', List.getElem?_eq_getElem hlast', rfl, rfl, ?_, ?_⟩
    · simp [List.getD_eq_getElem?_getD, List.getElem?_eq_getElem, hfirst', hlast']
    · set a := (g.grapheme_spans.getD first (0, 0)).1 with ha
      set k := (g.grapheme_spans.getD last (0, 0)).2 - a with hk
      refine ⟨g.grapheme_str.take a, (g.grapheme_str.drop a).drop k, ?_⟩
      dsimp only
      rw [List.append_assoc, List.take_append_drop k (g.grapheme_str.drop a),
        List.take_append_drop a g.grapheme_str]

/-- Witness for C1 (amended): on `g9ex` with range `[1, 2)` the result is
not `none`, because the second unit's span `(1, 2)` overlaps. -/
theorem c1_span_projection_witness : ¬ subsequence_covering_span g9ex 1 2 = none := by
  intro h
  have h2 := ((c1_span_projection g9ex 1 2 (by decide) (by decide)).1.mp h)
    (1, 2) (by decide)
  exact absurd h2 (by decide)

/-- C9: for every constructor-accepted `g`, when
`subsequence_covering_span` returns an object, that object again passes
all constructor checks, has phoneme spans contiguous starting at 0, and
has its grapheme spans rebased so that the first selected unit's span
starts at 0.  (`g` itself is unchanged: the model is pure and the result
is a fresh record.) -/
theorem c9_subsequence_invariants (g : GraphemePhoneme) (s e : Int) (r : GraphemePhoneme)
    (hval : post_init_ok g = true) (hres : subsequence_covering_span g s e = some r) :
    post_init_ok r = true ∧ contiguousFrom 0 r.phoneme_spans ∧
    (∃ b, r.grapheme_spans.head? = some (0, b)) := by
  obtain ⟨first, last, _, hh, hl, hfl, hlast, rfl⟩ := subsequence_shape g s e r hres
  rw [post_init_ok_iff] at hval
  obtain ⟨h1, h2, h3, h4⟩ := hval
  refine ⟨?_, cumulativeSpans_contiguous _ 0, ?_⟩
  · rw [post_init_ok_iff]
    refine ⟨?_, ?_, ?_, rfl⟩
    · simp [List.length_take, List.length_drop, h1]
    · simp [List.length_take, List.length_drop, List.length_map, h2, h1]
    · simp [cumulativeSpans_length, List.length_take, List.length_drop]
  · have hfirst' : first < g.grapheme_spans.length := by omega
    refine ⟨(g.grapheme_spans[first]).2 - (g.grapheme_spans[first]).1, ?_⟩
    have hget : g.grapheme_spans.getD first (0, 0) = g.grapheme_spans[first] := by
      rw [List.getD_eq_getElem?_getD, List.getElem?_eq_getElem hfirst']
      rfl
    simp only [List.head?_map]
    rw [List.head?_eq_getElem?, List.getElem?_take, if_pos (by omega : 0 < last + 1 - first),
      List.getElem?_drop, Nat.add_zero, List.getElem?_eq_getElem hfirst']
    simp [hget, List.getD_eq_getElem?_getD, List.getElem?_eq_getElem hfirst']

/-- Witness for C9 at `g = g9ex`, range `[1, 2)`. -/
theorem c9_subsequence_invariants_witness :
    ∃ r, subsequence_covering_span g9ex 1 2 = some r ∧
      (post_init_ok r = true ∧ contiguousFrom 0 r.phoneme_spans ∧
        (∃ b, r.grapheme_spans.head? = some (0, b))) :=
  ⟨⟨['b'], [['b']], ['Y'], [['Y']], [(0, 1)], [(0, 1)]⟩, by decide,
   c9_subsequence_invariants g9ex 1 2 _ (by decide) (by decide)⟩

/-! ## C7 -/

theorem walkAligned_no_content :
    ∀ (ps : List (List Char × List Char)) (cur : Nat) (acc : Option (Nat × Nat)),
      (∀ pr ∈ ps, (isMarkerTok pr.1 || isMarkerTok pr.2) = true) →
      walkAligned ps cur acc = acc := by
  intro ps
  induction ps with
  | nil => intro cur acc _; rfl
  | cons pr rest ih =>
    intro cur acc h
    obtain ⟨s, q⟩ := pr
    have hm := h (s, q) (List.mem_cons_self _ _)
    unfold walkAligned
    rw [if_neg]
    · exact ih _ acc fun pr hpr => h pr (List.mem_cons_of_mem _ hpr)
    · rw [Bool.or_eq_true] at hm
      rcases hm with hm' | hm' <;> simp [hm']

theorem walkAligned_bounds :
    ∀ (ps : List (List Char × List Char)) (cur : Nat) (acc : Option (Nat × Nat)),
      (∀ f0 e0, acc = some (f0, e0) → f0 ≤ e0 ∧ e0 ≤ cur) →
      ∀ f e, walkAligned ps cur acc = some (f, e) →
        f ≤ e ∧ e ≤ cur + pairContentLen ps := by
  intro ps
  induction ps with
  | nil =>
    intro cur acc hacc f e h
    unfold walkAligned at h
    have := hacc f e h
    have hz : pairContentLen [] = 0 := rfl
    omega
  | cons pr rest ih =>
    intro cur acc hacc f e h
    obtain ⟨s, q⟩ := pr
    have hplen : pairContentLen ((s, q) :: rest) =
        (if isMarkerTok s then 0 else s.length) + pairContentLen rest := by
      simp [pairContentLen]
    have hcur : (if isMarkerTok s then cur else cur + s.length) =
        cur + (if isMarkerTok s then 0 else s.length) := by
      by_cases hm : isMarkerTok s = true <;> simp [hm]
    unfold walkAligned at h
    by_cases hc : (!isMarkerTok s && !isMarkerTok q) = true
    · rw [if_pos hc] at h
      cases acc with
      | none =>
        have hb := ih _ _ (by
          intro f0 e0 h0
          simp only [Option.some_inj, Prod.mk.injEq] at h0
          obtain ⟨rfl, rfl⟩ := h0
          constructor
          · rw [hcur]; omega
          · exact le_refl _) f e h
        rw [hcur] at hb
        omega
      | some p =>
        obtain ⟨f0, e0⟩ := p
        have hae := hacc f0 e0 rfl
        have hb := ih _ _ (by
          intro f1 e1 h1
          simp only [Option.some_inj, Prod.mk.injEq] at h1
          obtain ⟨rfl, rfl⟩ := h1
          constructor
          · rw [hcur]; omega
          · exact le_refl _) f e h
        rw [hcur] at hb
        omega
    · rw [if_neg hc] at h
      have hb := ih _ _ (by
        intro f1 e1 h1
        have := hacc f1 e1 h1
        rw [hcur]
        omega) f e h
      rw [hcur] at hb
      omega

theorem pairContentLen_zip_le :
    ∀ (sToks qToks : List (List Char)), pairContentLen (sToks.zip qToks) ≤ contentLen sToks := by
  intro sToks
  induction sToks with
  | nil => intro q; simp [pairContentLen, contentLen]
  | cons s rest ih =>
    intro q
    cases q with
    | nil => simp [pairContentLen, contentLen]
    | cons q0 qrest =>
      have := ih qrest
      simp only [List.zip_cons_cons, pairContentLen, contentLen, List.map_cons,
        List.sum_cons] at *
      omega

/-- C7 (spec-modelled adapter): output candidates are index ranges into
the sentence's `phoneme_text` (`f ≤ e` and `e` bounded by the total
content length of the sentence-side tokens, which is the length of the
matched phoneme text), and an alignment with no position where both
sides are simultaneously non-gap yields no candidate. -/
theorem c7_adapter_candidates (sToks qToks : List (List Char)) (sentenceLen : Nat)
    (hsum : contentLen sToks = sentenceLen) :
    ((∀ pr ∈ sToks.zip qToks, (isMarkerTok pr.1 || isMarkerTok pr.2) = true) →
      adapterCandidate sToks qToks = none) ∧
    (∀ f e, adapterCandidate sToks qToks = some (f, e) → f ≤ e ∧ e ≤ sentenceLen) := by
  constructor
  · intro h
    exact walkAligned_no_content _ 0 none h
  · intro f e h
    have hb := walkAligned_bounds (sToks.zip qToks) 0 none
      (by intro f0 e0 h0; cases h0) f e h
    have hz := pairContentLen_zip_le sToks qToks
    omega

/-- Witness for C7: a marker-only degenerate alignment yields no
candidate, and the single-content-pair alignment yields a range inside
the sentence's phoneme text. -/
theorem c7_adapter_candidates_witness :
    adapterCandidate [['-'], ['a', 'b']] [['x'], ['-']] = none ∧
    (0 ≤ 1 ∧ 1 ≤ contentLen [['a']]) :=
  ⟨(c7_adapter_candidates [['-'], ['a', 'b']] [['x'], ['-']] 2 (by decide)).1 (by decide),
   (c7_adapter_candidates [['a']] [['b']] (contentLen [['a']]) rfl).2 0 1 (by decide)⟩

/-! ## C4: reconstruction round-trip -/

theorem leadsWith_append_self : ∀ (l t : List Char), leadsWith l (l ++ t) = true := by
  intro l
  induction l with
  | nil => intro t; rfl
  | cons a as ih =>
    intro t
    simp [leadsWith, ih]

theorem leadsWith_cons_iff (a : Char) (as l : List Char) :
    leadsWith (a :: as) l = true ↔ ∃ bs, l = a :: bs ∧ leadsWith as bs = true := by
  cases l with
  | nil => simp [leadsWith]
  | cons b bs =>
    simp only [leadsWith, Bool.and_eq_true, beq_iff_eq]
    constructor
    · rintro ⟨rfl, h2⟩
      exact ⟨bs, rfl, h2⟩
    · rintro ⟨bs', hb, h2⟩
      injection hb with hb1 hb2
      subst hb1
      subst hb2
      exact ⟨rfl, h2⟩

theorem findFromGo_spec (gs pat : List Char) :
    ∀ (fuel i j : Nat), i ≤ j → j < i + fuel →
      leadsWith pat (gs.drop j) = true →
      (∀ p, i ≤ p → p < j → leadsWith pat (gs.drop p) = false) →
      findFromGo gs pat i fuel = some j := by
  intro fuel
  induction fuel with
  | zero =>
    intro i j h1 h2
    omega
  | succ fuel ih =>
    intro i j h1 h2 hocc hmin
    unfold findFromGo
    by_cases hi : leadsWith pat (gs.drop i) = true
    · rw [if_pos hi]
      rcases Nat.eq_or_lt_of_le h1 with rfl | hlt
      · rfl
      · rw [hmin i (le_refl i) hlt] at hi
        cases hi
    · rw [if_neg hi]
      have hij : i < j := by
        rcases Nat.eq_or_lt_of_le h1 with rfl | hlt
        · exact absurd hocc hi
        · exact hlt
      exact ih (i + 1) j (by omega) (by omega) hocc
        (fun p hp1 hp2 => hmin p (by omega) hp2)

theorem findFrom_spec (gs pat : List Char) (c j : Nat) (hne : pat ≠ [])
    (hcj : c ≤ j) (hocc : leadsWith pat (gs.drop j) = true)
    (hmin : ∀ p, c ≤ p → p < j → leadsWith pat (gs.drop p) = false) :
    findFrom gs pat c = some j := by
  have hjlen : j < gs.length := by
    cases pat with
    | nil => exact absurd rfl hne
    | cons a as =>
      rw [leadsWith_cons_iff] at hocc
      obtain ⟨bs, hbs, _⟩ := hocc
      by_contra hj
      rw [List.drop_eq_nil_of_le (by omega)] at hbs
      cases hbs
  unfold findFrom
  exact findFromGo_spec gs pat _ c j hcj (by omega) hocc hmin

theorem no_occurrence_in_gap (gs : List Char) (cursor q : Nat) (c0 : Char) (us : List Char)
    (hclass : classOf c0 ≠ .other) (hgap : gapOther gs cursor q) :
    ∀ p, cursor ≤ p → p < q → leadsWith (c0 :: us) (gs.drop p) = false := by
  intro p hp1 hp2
  by_contra h
  rw [Bool.not_eq_false, leadsWith_cons_iff] at h
  obtain ⟨bs, hbs, _⟩ := h
  exact hclass (hgap p c0 bs hp1 hp2 hbs)

theorem dropWhile_head_not (p : Char → Bool) :
    ∀ (l : List Char) (a : Char) (t : List Char), l.dropWhile p = a :: t → p a = false := by
  intro l
  induction l with
  | nil => intro a t h; cases h
  | cons x xs ih =>
    intro a t h
    rw [List.dropWhile_cons] at h
    by_cases hx : p x = true
    · rw [if_pos hx] at h
      exact ih a t h
    · rw [if_neg hx] at h
      injection h with h1 _
      subst h1
      exact Bool.eq_false_iff.mpr hx

theorem locateSpans_chinese (gs : List Char) (caps : ConvCaps) :
    ∀ (cs : List Char) (q cursor : Nat) (restG : List (List Char)) (restS : List (Nat × Nat)),
      cursor ≤ q →
      gapOther gs cursor q →
      (cs = [] → cursor = q) →
      (∀ c ∈ cs, classOf c = .ideo ∧ caps.phonC c ≠ []) →
      leadsWith cs (gs.drop q) = true →
      locateSpans gs restG (q + cs.length) = some restS →
      locateSpans gs ((chineseUnits caps cs q).map (·.graph) ++ restG) cursor =
        some ((chineseUnits caps cs q).map (fun u => (u.gstart, u.gstop)) ++ restS) := by
  intro cs
  induction cs with
  | nil =>
    intro q cursor restG restS _ _ hnil _ _ hcont
    have hq : cursor = q := hnil rfl
    subst hq
    simpa using hcont
  | cons c cs' ih =>
    intro q cursor restG restS hcq hgap _ hall hlw hcont
    have hc := hall c (List.mem_cons_self _ _)
    have hpC : ¬ (caps.phonC c).isEmpty = true := by
      rw [List.isEmpty_iff]
      exact hc.2
    rw [leadsWith_cons_iff] at hlw
    obtain ⟨bs, hbs, hlw'⟩ := hlw
    have hdropq1 : gs.drop (q + 1) = bs := by
      rw [← List.drop_drop, hbs, List.drop_succ_cons, List.drop_zero]
    unfold chineseUnits
    rw [if_neg hpC]
    simp only [List.map_cons, List.cons_append]
    unfold locateSpans
    have hfind : findFrom gs [c] cursor = some q := by
      apply findFrom_spec gs [c] cursor q (by simp) hcq
      · rw [leadsWith_cons_iff]
        exact ⟨bs, hbs, rfl⟩
      · exact no_occurrence_in_gap gs cursor q c [] (by simp [hc.1]) hgap
    rw [hfind]
    have hcont' : locateSpans gs restG (q + 1 + cs'.length) = some restS := by
      have harith : q + 1 + cs'.length = q + (c :: cs').length := by
        simp [List.length_cons]
        omega
      rw [harith]
      exact hcont
    have hrec := ih (q + 1) (q + 1) restG restS (le_refl _)
      (fun p a t h1 h2 _ => absurd (h1.trans_lt h2) (lt_irrefl _))
      (fun _ => rfl)
      (fun d hd => hall d (List.mem_cons_of_mem _ hd))
      (by rw [hdropq1]; exact hlw')
      hcont'
    simp only [List.length_cons, List.length_nil, Nat.zero_add]
    rw [hrec]
    rfl

theorem locate_conv (gs : List Char) (caps : ConvCaps)
    (hLatin : ∀ c, classOf c = .latin → caps.uAlpha c = true) :
    ∀ (n : Nat) (suffix : List Char) (pos cursor : Nat),
      suffix.length ≤ n →
      gs.drop pos = suffix →
      cursor ≤ pos →
      gapOther gs cursor pos →
      (cursor < pos → ∀ a t, suffix = a :: t → classOf a ≠ .other) →
      noDrop caps (tokenizeFrom suffix pos) →
      locateSpans gs ((convUnits caps (tokenizeFrom suffix pos)).map (·.graph)) cursor =
        some ((convUnits caps (tokenizeFrom suffix pos)).map (fun u => (u.gstart, u.gstop))) := by
  intro n
  induction n with
  | zero =>
    intro suffix pos cursor hlen _ _ _ _ _
    rw [Nat.le_zero, List.length_eq_zero] at hlen
    subst hlen
    rfl
  | succ n ih =>
    intro suffix pos cursor hlen hdrop hcp hgap hgapcls hnd
    cases suffix with
    | nil => rfl
    | cons c rest =>
      have hTok := tokenizeFrom_cons c rest pos
      rw [hTok] at hnd ⊢
      set run := rest.takeWhile (fun d => classOf d == classOf c) with hrun
      set dws := rest.dropWhile (fun d => classOf d == classOf c) with hdws
      have hrest : run ++ dws = rest := List.takeWhile_append_dropWhile _ _
      have hrunclass : ∀ d ∈ run, classOf d = classOf c := by
        intro d hd
        rw [hrun] at hd
        exact beq_iff_eq.mp
          (@List.mem_takeWhile_imp Char (fun d => classOf d == classOf c) rest d hd)
      have hdropP : gs.drop (pos + 1 + run.length) = dws := by
        have h1 : pos + 1 + run.length = pos + (1 + run.length) := by omega
        rw [h1, ← List.drop_drop, hdrop,
          show (1 : Nat) + run.length = run.length + 1 by omega,
          List.drop_succ_cons, ← hrest, List.drop_left]
      have hrawlw : leadsWith (c :: run) (gs.drop pos) = true := by
        rw [hdrop, ← hrest]
        exact leadsWith_append_self (c :: run) dws
      have hndT := hnd _ (List.mem_cons_self _ _)
      have hndRest : noDrop caps (tokenizeFrom dws (pos + 1 + run.length)) :=
        fun t ht => hnd t (List.mem_cons_of_mem _ ht)
      have hlenrec : dws.length ≤ n := by
        have h1 : (c :: rest).length ≤ n + 1 := hlen
        have h2 : dws.length ≤ rest.length :=
          List.Sublist.length_le (by rw [hdws]; exact List.dropWhile_sublist _)
        simp only [List.length_cons] at h1
        omega
      have hcu : ∀ (T : TokenizedSegment) (toks : List TokenizedSegment),
          convUnits caps (T :: toks) = tokenUnits caps T ++ convUnits caps toks := by
        intro T toks
        simp [convUnits]
      rw [hcu]
      have hcontrec := ih dws (pos + 1 + run.length) (pos + 1 + run.length) hlenrec hdropP
        (le_refl _) (fun q a t h1 h2 _ => absurd (h1.trans_lt h2) (lt_irrefl _))
        (fun h => absurd h (lt_irrefl _)) hndRest
      have harith : pos + (c :: run).length = pos + 1 + run.length := by
        simp only [List.length_cons]
        omega
      cases hcls : classOf c with
      | ideo =>
        have hchin : isChineseTok (c :: run) = true := by
          rw [isChineseTok]
          simp only [List.isEmpty_cons, Bool.not_false, Bool.true_and, List.all_cons,
            Bool.and_eq_true, List.all_eq_true]
          refine ⟨by rw [hcls]; rfl, fun d hd => by rw [(hrunclass d hd).trans hcls]; rfl⟩
        have htu : tokenUnits caps ⟨c :: run, pos, pos + 1 + run.length⟩
            = chineseUnits caps (c :: run) pos := by
          simp [tokenUnits, hchin]
        rw [htu, List.map_append, List.map_append]
        have hallmem : ∀ d ∈ c :: run, classOf d = ScriptClass.ideo ∧ caps.phonC d ≠ [] := by
          intro d hd
          have hcls' : classOf d = ScriptClass.ideo := by
            rw [List.mem_cons] at hd
            rcases hd with rfl | hd'
            · exact hcls
            · exact (hrunclass d hd').trans hcls
          exact ⟨hcls', hndT.1 hchin d hd⟩
        exact locateSpans_chinese gs caps (c :: run) pos cursor _ _ hcp hgap
          (fun h => absurd h (List.cons_ne_nil _ _)) hallmem hrawlw
          (by rw [harith]; exact hcontrec)
      | latin =>
        have hchin : isChineseTok (c :: run) = false := by
          rw [isChineseTok]
          simp only [List.all_cons, hcls]
          rw [show (ScriptClass.latin == ScriptClass.ideo) = false from rfl, Bool.false_and,
            Bool.and_false]
        have halpha : isAlphaTok caps (c :: run) = true := by
          simp only [isAlphaTok, List.isEmpty_cons, Bool.not_false, Bool.true_and,
            List.all_cons, Bool.and_eq_true, List.all_eq_true]
          exact ⟨hLatin c hcls, fun d hd => hLatin d ((hrunclass d hd).trans hcls)⟩
        have hpE : ¬ (caps.phonE (c :: run)).isEmpty = true := by
          rw [List.isEmpty_iff]
          exact hndT.2 hchin halpha
        have htu : tokenUnits caps ⟨c :: run, pos, pos + 1 + run.length⟩
            = [⟨c :: run, pos, pos + 1 + run.length, caps.phonE (c :: run)⟩] := by
          simp [tokenUnits, hchin, halpha, hpE]
        rw [htu]
        simp only [List.singleton_append, List.map_cons]
        unfold locateSpans
        have hfind : findFrom gs (c :: run) cursor = some pos :=
          findFrom_spec gs (c :: run) cursor pos (List.cons_ne_nil _ _) hcp hrawlw
            (no_occurrence_in_gap gs cursor pos c run (by simp [hcls]) hgap)
        rw [hfind]
        simp only [List.length_cons]
        rw [show pos + (run.length + 1) = pos + 1 + run.length by omega, hcontrec]
        rfl
      | other =>
        have hchin : isChineseTok (c :: run) = false := by
          rw [isChineseTok]
          simp only [List.all_cons, hcls]
          rw [show (ScriptClass.other == ScriptClass.ideo) = false from rfl, Bool.false_and,
            Bool.and_false]
        by_cases halpha : isAlphaTok caps (c :: run) = true
        · have hcureq : cursor = pos := by
            by_contra hne
            exact (hgapcls (lt_of_le_of_ne hcp hne) c rest rfl) hcls
          subst hcureq
          have hpE : ¬ (caps.phonE (c :: run)).isEmpty = true := by
            rw [List.isEmpty_iff]
            exact hndT.2 hchin halpha
          have htu : tokenUnits caps ⟨c :: run, cursor, cursor + 1 + run.length⟩
              = [⟨c :: run, cursor, cursor + 1 + run.length, caps.phonE (c :: run)⟩] := by
            simp [tokenUnits, hchin, halpha, hpE]
          rw [htu]
          simp only [List.singleton_append, List.map_cons]
          unfold locateSpans
          have hfind : findFrom gs (c :: run) cursor = some cursor :=
            findFrom_spec gs (c :: run) cursor cursor (List.cons_ne_nil _ _) (le_refl _)
              hrawlw (fun p h1 h2 => absurd (h1.trans_lt h2) (lt_irrefl _))
          rw [hfind]
          simp only [List.length_cons]
          rw [show cursor + (run.length + 1) = cursor + 1 + run.length by omega, hcontrec]
          rfl
        · have htu : tokenUnits caps ⟨c :: run, pos, pos + 1 + run.length⟩ = [] := by
            simp [tokenUnits, hchin, halpha]
          rw [htu]
          simp only [List.nil_append]
          apply ih dws (pos + 1 + run.length) cursor hlenrec hdropP (by omega)
          · intro p a t h1 h2 hpt
            by_cases hplt : p < pos
            · exact hgap p a t h1 hplt hpt
            · have hge : pos ≤ p := le_of_not_lt hplt
              have hk : p - pos < (c :: run).length := by
                simp only [List.length_cons]
                omega
              have hdp : gs.drop p = (gs.drop pos).drop (p - pos) := by
                rw [List.drop_drop]
                congr 1
                omega
              rw [hdrop, ← hrest, ← List.cons_append] at hdp
              have hget : ((c :: run) ++ dws)[p - pos]? = some a := by
                rw [← List.head?_drop, ← hdp, hpt]
                rfl
              rw [List.getElem?_append_left hk] at hget
              have ha : a ∈ c :: run := List.getElem?_mem hget
              rw [List.mem_cons] at ha
              rcases ha with rfl | ha'
              · exact hcls
              · exact (hrunclass a ha').trans hcls
          · intro _ a t hdwseq
            have hpa := dropWhile_head_not (fun d => classOf d == classOf c) rest a t
              (by rw [← hdws]; exact hdwseq)
            have hpa' : (classOf a == classOf c) = false := hpa
            intro haother
            have hac : classOf a = classOf c := by rw [hcls, haother]
            rw [hac] at hpa'
            simp at hpa'
          · exact hndRest

/-- Counterexample for C4: with the dropped-unit capabilities `capsC4`
and the text `"ab b"`, the converter records the surviving unit `"b"` at
grapheme span `(3, 4)`, but reconstruction from the stored components
relocates it by sequential search at span `(1, 2)` (inside the dropped
token `"ab"`), so the reconstructed spans differ from the originals. -/
theorem c4_counterexample :
    (convert_to_grapheme_phoneme capsC4 txtC4).grapheme_spans = [(3, 4)] ∧
    (from_components (convert_to_grapheme_phoneme capsC4 txtC4).grapheme_str
        (convert_to_grapheme_phoneme capsC4 txtC4).grapheme_list
        (convert_to_grapheme_phoneme capsC4 txtC4).phoneme_str
        (convert_to_grapheme_phoneme capsC4 txtC4).phoneme_list).toOption.map
        (·.grapheme_spans) = some [(1, 2)] ∧
    ¬ ([((1 : Nat), (2 : Nat))] = [((3 : Nat), (4 : Nat))]) :=
  ⟨by decide, by decide, by decide⟩

/-- C4 as amended: for every `g` built by the converter from an input in
which no unit is dropped (every ideograph character and every alphabetic
token has a non-empty sanitized phoneme), reconstructing from the four
stored components yields grapheme and phoneme spans equal to `g`'s
original spans (indeed the very same `GraphemePhoneme`); reconstruction
locates each grapheme unit by sequential search starting at the end of
the previous match and raises a reconstruction error when some unit
cannot be found.  When a unit is dropped, the relocated spans can differ
(see the counterexample). -/
theorem c4_reconstruction_roundtrip (caps : ConvCaps) (text : List Char)
    (hLatin : ∀ c, classOf c = ScriptClass.latin → caps.uAlpha c = true)
    (hNoDrop : noDrop caps (tokenizeFrom text 0)) :
    (from_components (convert_to_grapheme_phoneme caps text).grapheme_str
        (convert_to_grapheme_phoneme caps text).grapheme_list
        (convert_to_grapheme_phoneme caps text).phoneme_str
        (convert_to_grapheme_phoneme caps text).phoneme_list
      = .ok (convert_to_grapheme_phoneme caps text)) ∧
    (∀ gs gl ps pl, locateSpans gs gl 0 = none →
      from_components gs gl ps pl
        = .error "Unable to locate grapheme segment in grapheme_str") := by
  constructor
  · have hloc := locate_conv text caps hLatin text.length text 0 0 le_rfl rfl (le_refl _)
      (fun q a t _ h2 _ => absurd h2 (Nat.not_lt_zero q))
      (fun h => absurd h (lt_irrefl _)) hNoDrop
    show from_components text ((convUnits caps (tokenizeFrom text 0)).map (·.graph))
        (((convUnits caps (tokenizeFrom text 0)).map (·.phon)).flatten)
        ((convUnits caps (tokenizeFrom text 0)).map (·.phon))
      = .ok (convert_to_grapheme_phoneme caps text)
    unfold from_components
    rw [hloc]
    dsimp only
    have hpi : post_init_check
        (⟨text, (convUnits caps (tokenizeFrom text 0)).map (·.graph),
          ((convUnits caps (tokenizeFrom text 0)).map (·.phon)).flatten,
          (convUnits caps (tokenizeFrom text 0)).map (·.phon),
          (convUnits caps (tokenizeFrom text 0)).map (fun u => (u.gstart, u.gstop)),
          cumulativeSpans ((convUnits caps (tokenizeFrom text 0)).map (·.phon)) 0⟩ :
          GraphemePhoneme) = .ok () := by
      unfold post_init_check
      simp [List.length_map, cumulativeSpans_length]
    rw [hpi]
    rfl
  · intro gs gl ps pl hnone
    unfold from_components
    rw [hnone]

/-- Witness for C4 (amended) on the text `"a好"` with constant non-empty
phonemes: the reconstruction returns exactly the converter's object. -/
theorem c4_reconstruction_roundtrip_witness :
    from_components (convert_to_grapheme_phoneme capsW4 txtW4).grapheme_str
        (convert_to_grapheme_phoneme capsW4 txtW4).grapheme_list
        (convert_to_grapheme_phoneme capsW4 txtW4).phoneme_str
        (convert_to_grapheme_phoneme capsW4 txtW4).phoneme_list
      = .ok (convert_to_grapheme_phoneme capsW4 txtW4) :=
  (c4_reconstruction_roundtrip capsW4 txtW4
    (fun c h => by simp [capsW4, h])
    (by unfold noDrop; decide)).1

end AsrEC
